import Mathlib

/-!
Verification of the jaxrts HNC/XRTS specification against the repository
sources.  Real-valued numerical code is embedded over `ℝ` (floating-point
arithmetic is idealised as exact real arithmetic); pure data manipulation
(JSON encoding, grid summaries) is embedded over `ℚ` so that it stays
decidable.  Components whose implementation files are not part of the
repository snapshot (the `hnc_potentials` and `hypernetted_chain` modules)
are modelled from the specification text, as indicated on each definition.
-/

open Real

noncomputable section

/-! ## Radial/Fourier transform engine -/

/-- Modelled from the spec: the transform engine (the sine-transform code of
`jaxrts.hypernetted_chain`) is not under `src/`; the spec (§4.2) defines the
forward transform as the discrete analogue of
`f(k) = (4π/k) ∫ r f(r) sin(kr) dr` on the shared radial grid with uniform
spacing `dr`. -/
def sinftForward (M : ℕ) (r k : Fin M → ℝ) (dr : ℝ) (f : Fin M → ℝ)
    (i : Fin M) : ℝ :=
  4 * π * dr / k i * ∑ j, r j * f j * Real.sin (k i * r j)

/-- Modelled from the spec: the inverse transform applies the same sine
transform with the reciprocal prefactor, the discrete analogue of the 3D
isotropic inverse `f(r) = 1/(2π²r) ∫ k f(k) sin(kr) dk`, with uniform
reciprocal spacing `dk`. -/
def sinftInverse (M : ℕ) (r k : Fin M → ℝ) (dk : ℝ) (F : Fin M → ℝ)
    (j : Fin M) : ℝ :=
  dk / (2 * π ^ 2 * r j) * ∑ i, k i * F i * Real.sin (k i * r j)

/-- The round trip `inverse ∘ forward` of the transform engine. -/
def sinftRoundTrip (M : ℕ) (r k : Fin M → ℝ) (dr dk : ℝ)
    (f : Fin M → ℝ) : Fin M → ℝ :=
  sinftInverse M r k dk (sinftForward M r k dr f)

/-- Reciprocal-grid construction, embedded from
`doc/examples/ionic/plot_HNC_potentials.py` (lines 17–19) and
`doc/examples/ionic/plot_HNC_Gregori_Comparison.py` (lines 35–37):
`dr = r[1] - r[0]; dk = pi / (len(r) * dr); k = pi / r[-1] + arange(len(r)) * dk`. -/
def kGrid (M : ℕ) (r : ℕ → ℝ) (i : ℕ) : ℝ :=
  π / r (M - 1) + i * (π / (M * (r 1 - r 0)))

/-- The spec-conforming aligned two-point radial grid `r = [dr, 2·dr]` with
`dr = 1`: `r_j = j + 1`. -/
def rGrid2 : Fin 2 → ℝ := fun j => j.val + 1

/-- The reciprocal grid paired with `rGrid2` by the construction in the repository:
`k_0 = π/r_1 = π/2`, `dk = π/(2·dr) = π/2`. -/
def kGrid2 : Fin 2 → ℝ := fun i => π / 2 + i.val * (π / 2)

/-- Helper: on the aligned two-point grid the discrete round trip returns the
first sample unchanged and annihilates the last sample. -/
lemma sinftRoundTrip_two_eval (f : Fin 2 → ℝ) :
    sinftRoundTrip 2 rGrid2 kGrid2 1 (π / 2) f 0 = f 0 ∧
    sinftRoundTrip 2 rGrid2 kGrid2 1 (π / 2) f 1 = 0 := by
  have h0 : rGrid2 0 = 1 := by simp [rGrid2]
  have h1 : rGrid2 1 = 2 := by norm_num [rGrid2]
  have k0 : kGrid2 0 = π / 2 := by simp [kGrid2]
  have k1 : kGrid2 1 = π := by norm_num [kGrid2]
  have s1 : Real.sin (π / 2 * 1) = 1 := by rw [mul_one, Real.sin_pi_div_two]
  have s2 : Real.sin (π / 2 * 2) = 0 := by
    rw [show π / 2 * 2 = π by ring, Real.sin_pi]
  have s3 : Real.sin (π * 1) = 0 := by rw [mul_one, Real.sin_pi]
  have s4 : Real.sin (π * 2) = 0 := by
    rw [show π * 2 = 2 * π by ring, Real.sin_two_pi]
  have hπ : π ≠ 0 := Real.pi_ne_zero
  constructor
  · simp only [sinftRoundTrip, sinftInverse, sinftForward, Fin.sum_univ_two,
      h0, h1, k0, k1, s1, s2, s3, s4]
    field_simp
    ring
  · simp only [sinftRoundTrip, sinftInverse, sinftForward, Fin.sum_univ_two,
      h0, h1, k0, k1, s1, s2, s3, s4]
    field_simp

end

/-- C2 (counterexample): the claimed universal round-trip property — every
grid-sampled input is recovered elementwise with relative error below `1e-6` —
is false: on the spec-conforming aligned two-point grid the input with samples
`(0, 1)` comes back as `(0, 0)`, a relative error of `1` at the last point. -/
theorem sinft_roundtrip_universal_claim_false :
    ¬ (∀ f : Fin 2 → ℝ, ∀ j,
        |sinftRoundTrip 2 rGrid2 kGrid2 1 (π / 2) f j - f j|
          < 1 / 1000000 * |f j|) := by
  intro h
  have hrt := (sinftRoundTrip_two_eval (fun i => (i.val : ℝ))).2
  have := h (fun i => (i.val : ℝ)) 1
  rw [hrt] at this
  norm_num at this

/-- C2 (amended): the discrete round trip is not an exact inverse on every
input; on the aligned grid whose radii are consecutive multiples of the
spacing, it reproduces every sample except the last one, which is mapped to
`0` (shown here for the two-point grid: `inverse(forward(f)) = (f 0, 0)` for
every input `f`). -/
theorem sinft_roundtrip_amended (f : Fin 2 → ℝ) :
    sinftRoundTrip 2 rGrid2 kGrid2 1 (π / 2) f 0 = f 0 ∧
    sinftRoundTrip 2 rGrid2 kGrid2 1 (π / 2) f 1 = 0 :=
  sinftRoundTrip_two_eval f

/-- C5: for a radial grid of `M ≥ 2` strictly increasing uniformly spaced
radii with spacing `dr`, the paired reciprocal grid built by the repository
(`k = π/r[-1] + arange(M)·π/(M·dr)`) has first point `π / r_{M-1}`, uniform
spacing `π / (M·dr)`, and `k_i = π/r_{M-1} + i·π/(M·dr)` for every `i`. -/
theorem kGrid_matches_claim (M : ℕ) (r : ℕ → ℝ) (dr : ℝ) (hM : 2 ≤ M)
    (hdr : 0 < dr) (hstep : ∀ i, i + 1 < M → r (i + 1) = r i + dr) :
    kGrid M r 0 = π / r (M - 1) ∧
    (∀ i : ℕ, kGrid M r (i + 1) - kGrid M r i = π / (M * dr)) ∧
    (∀ i : ℕ, kGrid M r i = π / r (M - 1) + i * (π / (M * dr))) := by
  have h10 : r 1 - r 0 = dr := by
    have := hstep 0 (by omega)
    simp only [zero_add] at this
    rw [this]; ring
  refine ⟨?_, ?_, ?_⟩
  · simp [kGrid]
  · intro i
    simp only [kGrid, h10]
    push_cast
    ring
  · intro i
    simp only [kGrid, h10]

/-- C5 (witness): instantiation at the concrete grid `r_i = 1 + i` with
`M = 4`, `dr = 1`. -/
theorem kGrid_matches_claim_witness :
    (2 ≤ 4 ∧ (0:ℝ) < 1 ∧
      (∀ i : ℕ, i + 1 < 4 →
        (fun n : ℕ => (1:ℝ) + n) (i + 1) = (fun n : ℕ => (1:ℝ) + n) i + 1)) ∧
    (kGrid 4 (fun n : ℕ => (1:ℝ) + n) 0 = π / (fun n : ℕ => (1:ℝ) + n) (4 - 1) ∧
     (∀ i : ℕ, kGrid 4 (fun n : ℕ => (1:ℝ) + n) (i + 1)
        - kGrid 4 (fun n : ℕ => (1:ℝ) + n) i = π / (4 * 1)) ∧
     (∀ i : ℕ, kGrid 4 (fun n : ℕ => (1:ℝ) + n) i
        = π / (fun n : ℕ => (1:ℝ) + n) (4 - 1) + i * (π / (4 * 1)))) :=
  ⟨⟨by norm_num, by norm_num, fun i _ => by push_cast; ring⟩,
    kGrid_matches_claim 4 (fun n : ℕ => (1:ℝ) + n) 1 (by norm_num) (by norm_num)
      (fun i _ => by push_cast; ring)⟩

/-! ## Potential model -/

/-- Modelled from the spec: the potential classes of `jaxrts.hnc_potentials`
are not under `src/`.  Spec §4.1 names the concrete variants: the bare Coulomb
potential and regularized short-distance forms for quantum/diffraction
corrections. -/
inductive PotentialVariant
  | coulomb
  | regularizedShortDistance

noncomputable section

/-- Modelled from the spec: the full pair potential of each variant, with
pair prefactor `qq` (the product of the two species charges over `4πε₀`,
possibly adjusted by the spin-averaged electron treatment), Ewald splitting
scale `a`, and short-distance regularization length `lam`.  The bare Coulomb
form is `qq/r`; the regularized form stays finite at short distance. -/
def fullR : PotentialVariant → ℝ → ℝ → ℝ → ℝ → ℝ
  | .coulomb, qq, _, _, r => qq / r
  | .regularizedShortDistance, qq, _, lam, r =>
      qq * (1 - Real.exp (-(r / lam))) / r

/-- Modelled from the spec: the smooth long-range tail, finite at `r = 0`
(unlike the bare Coulomb singularity), tending to the full bare potential as
`r → ∞`.  Both variants share the same Coulomb tail. -/
def longR : PotentialVariant → ℝ → ℝ → ℝ → ℝ → ℝ
  | .coulomb, qq, a, _, r => qq * (1 - Real.exp (-(a * r))) / r
  | .regularizedShortDistance, qq, a, _, r =>
      qq * (1 - Real.exp (-(a * r))) / r

/-- Modelled from the spec: the rapidly decaying short-range part, tending to
`0` as `r → ∞`. -/
def shortR : PotentialVariant → ℝ → ℝ → ℝ → ℝ → ℝ
  | .coulomb, qq, a, _, r => qq * Real.exp (-(a * r)) / r
  | .regularizedShortDistance, qq, a, lam, r =>
      qq * (Real.exp (-(a * r)) - Real.exp (-(r / lam))) / r

/-- Pair prefactor for the species pair `(a, b)`: Coulomb constant times the
two charges. -/
def pairPrefactor (kC : ℝ) (q : ℕ → ℝ) (a b : ℕ) : ℝ := kC * q a * q b

end

/-- C1: for every potential variant and every species pair, the short-range
and the long-range part of the pair potential sum exactly to the full
potential at every point of any radial grid of positive radii. -/
theorem potential_decomposition (v : PotentialVariant) (kC : ℝ) (q : ℕ → ℝ)
    (a b : ℕ) (al lam : ℝ) (M : ℕ) (r : Fin M → ℝ) (hr : ∀ j, 0 < r j)
    (j : Fin M) :
    shortR v (pairPrefactor kC q a b) al lam (r j)
      + longR v (pairPrefactor kC q a b) al lam (r j)
      = fullR v (pairPrefactor kC q a b) al lam (r j) := by
  have hne : r j ≠ 0 := (hr j).ne'
  cases v <;> simp only [shortR, longR, fullR] <;> field_simp <;> ring

/-- C1 (witness): instantiation at the bare Coulomb variant, unit charges,
unit splitting scale, on the one-point grid `r = [1]`. -/
theorem potential_decomposition_witness :
    (∀ j : Fin 1, 0 < (fun _ : Fin 1 => (1:ℝ)) j) ∧
    shortR .coulomb (pairPrefactor 1 (fun _ => 1) 0 0) 1 1
        ((fun _ : Fin 1 => (1:ℝ)) 0)
      + longR .coulomb (pairPrefactor 1 (fun _ => 1) 0 0) 1 1
        ((fun _ : Fin 1 => (1:ℝ)) 0)
      = fullR .coulomb (pairPrefactor 1 (fun _ => 1) 0 0) 1 1
        ((fun _ : Fin 1 => (1:ℝ)) 0) :=
  ⟨fun _ => by norm_num,
    potential_decomposition .coulomb 1 (fun _ => 1) 0 0 1 1 1
      (fun _ : Fin 1 => (1:ℝ)) (fun _ => by norm_num) 0⟩

/-! ## HNC fixed-point solver (modelled from the spec) -/

/-- Matrix-valued species-pair field on an `M`-point radial grid. -/
abbrev SpeciesField (N M : ℕ) := Fin N → Fin N → Fin M → ℝ

/-- Solver configuration (spec §6): iteration cap, tolerance, mixing
parameter, and the clamping bound used when exponentiating (spec §4.3,
numerical semantics). -/
structure HNCSettings where
  mixing : ℝ
  clampBound : ℝ
  tol : ℝ
  maxIter : ℕ

noncomputable section

/-- Clamp the exponent argument to `[-B, B]` before exponentiating (spec
§4.3: exponentials clipped to avoid overflow). -/
def clampExp (B x : ℝ) : ℝ := max (-B) (min B x)

/-- Modelled from the spec: the per-wavenumber Ornstein-Zernike solve of
`jaxrts.hypernetted_chain` is not under `src/`; spec §4.3 step 3 gives the
matrix relation `c(k) = h(k) · [I + n·h(k)]⁻¹` over species indices, with `n`
the diagonal density matrix. -/
def ozDirectK (N : ℕ) (nv : Fin N → ℝ) (H : Matrix (Fin N) (Fin N) ℝ) :
    Matrix (Fin N) (Fin N) ℝ :=
  H * (1 + Matrix.diagonal nv * H)⁻¹

/-- Modelled from the spec: steps 1–2 of the iteration, the total correlation
`h = g − 1` transformed to reciprocal space. -/
def hncHk (N M : ℕ) (r k : Fin M → ℝ) (dr : ℝ) (g : SpeciesField N M) :
    SpeciesField N M :=
  fun a b => sinftForward M r k dr (fun j => g a b j - 1)

/-- Modelled from the spec: step 3, the per-`k` OZ solve applied at every
wavenumber to the transformed total correlation. -/
def hncCk (N M : ℕ) (r k : Fin M → ℝ) (dr : ℝ) (nv : Fin N → ℝ)
    (g : SpeciesField N M) : SpeciesField N M :=
  fun a b j =>
    ozDirectK N nv (Matrix.of fun x y => hncHk N M r k dr g x y j) a b

/-- Modelled from the spec: step 4, the direct correlation transformed back
to radial space. -/
def hncCr (N M : ℕ) (r k : Fin M → ℝ) (dr dk : ℝ) (nv : Fin N → ℝ)
    (g : SpeciesField N M) : SpeciesField N M :=
  fun a b => sinftInverse M r k dk (hncCk N M r k dr nv g a b)

/-- Modelled from the spec: one full HNC iteration (spec §4.3, steps 1–6):
hypernetted-chain closure `g_new = exp(−V/Tbar + h − c)` with clamped exponent
(the temperature matrix is taken in energy units, absorbing `k_B`), followed
by fixed-point mixing with parameter `α`. -/
def hncStep (N M : ℕ) (r k : Fin M → ℝ) (dr dk : ℝ) (Vr : SpeciesField N M)
    (Tbar : Fin N → Fin N → ℝ) (nv : Fin N → ℝ) (cfg : HNCSettings)
    (g : SpeciesField N M) : SpeciesField N M :=
  fun a b j =>
    cfg.mixing * Real.exp
        (clampExp cfg.clampBound
          (-(Vr a b j) / Tbar a b + (g a b j - 1)
            - hncCr N M r k dr dk nv g a b j))
      + (1 - cfg.mixing) * g a b j

/-- Modelled from the spec: the convergence residual.  The spec (§9, open
question) leaves the norm underspecified; the L2 norm squared over the full
`N×N×M` array is chosen here. -/
def hncResidual (N M : ℕ) (g g' : SpeciesField N M) : ℝ :=
  ∑ a, ∑ b, ∑ j, (g' a b j - g a b j) ^ 2

/-- Modelled from the spec: the fixed-point loop (spec §4.3): repeat the
iteration until the residual is below tolerance or the iteration cap is
reached, returning the final estimate together with the number of iterations
actually used. -/
def hncLoop (N M : ℕ) (step : SpeciesField N M → SpeciesField N M) (tol : ℝ) :
    ℕ → SpeciesField N M → SpeciesField N M × ℕ
  | 0, g => (g, 0)
  | fuel + 1, g =>
    let g' := step g
    if hncResidual N M g g' < tol then (g', 1)
    else
      let rest := hncLoop N M step tol fuel g'
      (rest.1, rest.2 + 1)

/-- Modelled from the spec: the initial guess `g = exp(−V_r/(k_B Tbar))` with
clamped exponent (spec §4.3, Init). -/
def hncInit (N M : ℕ) (Vr : SpeciesField N M) (Tbar : Fin N → Fin N → ℝ)
    (B : ℝ) : SpeciesField N M :=
  fun a b j => Real.exp (clampExp B (-(Vr a b j) / Tbar a b))

/-- Modelled from the spec: the core HNC solve on shape-checked data.  `Vk`,
the reciprocal-space long-range potential, is accepted as an input (spec §4.3,
Init); the literal iteration recipe of the spec (steps 1–7) does not reference it
further. -/
def hncSolveCore (N M : ℕ) (r k : Fin M → ℝ) (dr dk : ℝ)
    (Vr Vk : SpeciesField N M) (Tbar : Fin N → Fin N → ℝ) (nv : Fin N → ℝ)
    (cfg : HNCSettings) : SpeciesField N M × ℕ :=
  hncLoop N M (hncStep N M r k dr dk Vr Tbar nv cfg) cfg.tol cfg.maxIter
    (hncInit N M Vr Tbar cfg.clampBound)

/-- Modelled from the spec: the structure-factor assembler (spec §4.4),
`S_ab(k) = δ_ab + n_a · transform(g_ab(r) − 1)`, using the same transform
engine as the solver. -/
def S_ii_HNC (N M : ℕ) (r k : Fin M → ℝ) (dr : ℝ) (nv : Fin N → ℝ)
    (g : SpeciesField N M) : SpeciesField N M :=
  fun a b i =>
    (if a = b then 1 else 0)
      + nv a * sinftForward M r k dr (fun j => g a b j - 1) i

end

/-- A species-pair field is symmetric under species-pair exchange. -/
def IsSymmField (N M : ℕ) (F : SpeciesField N M) : Prop :=
  ∀ a b j, F a b j = F b a j

/-- Helper: the per-wavenumber OZ direct-correlation matrix
`H · (1 + diagonal n · H)⁻¹` is symmetric whenever `H` is. -/
lemma ozDirectK_isSymm (N : ℕ) (nv : Fin N → ℝ)
    (H : Matrix (Fin N) (Fin N) ℝ) (hH : H.IsSymm) :
    (ozDirectK N nv H).IsSymm := by
  unfold ozDirectK
  set D : Matrix (Fin N) (Fin N) ℝ := Matrix.diagonal nv with hD
  set A : Matrix (Fin N) (Fin N) ℝ := 1 + D * H with hA
  set B : Matrix (Fin N) (Fin N) ℝ := 1 + H * D with hB
  have hBH : B * H = H * A := by
    rw [hA, hB, Matrix.add_mul, Matrix.mul_add, Matrix.one_mul,
      Matrix.mul_one, Matrix.mul_assoc]
  have hAt : A.transpose = B := by
    rw [hA, hB, Matrix.transpose_add, Matrix.transpose_one,
      Matrix.transpose_mul, hH.eq, hD, Matrix.diagonal_transpose]
  have hdet : A.det = B.det := by
    rw [hA, hB, Matrix.det_one_add_mul_comm]
  show (H * A⁻¹).transpose = H * A⁻¹
  rw [Matrix.transpose_mul, Matrix.transpose_nonsing_inv, hAt, hH.eq]
  by_cases hu : IsUnit A.det
  · have huB : IsUnit B.det := hdet ▸ hu
    have e1 : B⁻¹ * (B * H) * A⁻¹ = H * A⁻¹ := by
      rw [← Matrix.mul_assoc B⁻¹ B H, Matrix.nonsing_inv_mul _ huB,
        Matrix.one_mul]
    have e2 : B⁻¹ * (H * A) * A⁻¹ = B⁻¹ * H := by
      rw [Matrix.mul_assoc B⁻¹ (H * A) A⁻¹, Matrix.mul_assoc H A A⁻¹,
        Matrix.mul_nonsing_inv _ hu, Matrix.mul_one]
    rw [← e2, ← hBH, e1]
  · have huB : ¬IsUnit B.det := fun hx => hu (hdet ▸ hx)
    rw [Matrix.nonsing_inv_apply_not_isUnit _ hu,
      Matrix.nonsing_inv_apply_not_isUnit _ huB, Matrix.mul_zero,
      Matrix.zero_mul]

/-- Helper: the transformed total correlation is symmetric when `g` is. -/
lemma hncHk_symm (N M : ℕ) (r k : Fin M → ℝ) (dr : ℝ)
    (g : SpeciesField N M) (hg : IsSymmField N M g) :
    IsSymmField N M (hncHk N M r k dr g) := by
  intro a b j
  unfold hncHk sinftForward
  congr 1
  refine Finset.sum_congr rfl fun x _ => ?_
  simp only [hg a b x]

/-- Helper: the matrix built from a symmetric field at a fixed wavenumber is
a symmetric matrix. -/
lemma hk_matrix_isSymm (N M : ℕ) (r k : Fin M → ℝ) (dr : ℝ)
    (g : SpeciesField N M) (hg : IsSymmField N M g) (j : Fin M) :
    (Matrix.of fun x y => hncHk N M r k dr g x y j).IsSymm := by
  apply Matrix.IsSymm.ext
  intro x y
  exact hncHk_symm N M r k dr g hg y x j

/-- Helper: the reciprocal-space direct correlation is symmetric when `g`
is. -/
lemma hncCk_symm (N M : ℕ) (r k : Fin M → ℝ) (dr : ℝ) (nv : Fin N → ℝ)
    (g : SpeciesField N M) (hg : IsSymmField N M g) :
    IsSymmField N M (hncCk N M r k dr nv g) := by
  intro a b j
  unfold hncCk
  exact
    ((ozDirectK_isSymm N nv _ (hk_matrix_isSymm N M r k dr g hg j)).apply b a)

/-- Helper: the radial-space direct correlation is symmetric when `g` is. -/
lemma hncCr_symm (N M : ℕ) (r k : Fin M → ℝ) (dr dk : ℝ) (nv : Fin N → ℝ)
    (g : SpeciesField N M) (hg : IsSymmField N M g) :
    IsSymmField N M (hncCr N M r k dr dk nv g) := by
  intro a b j
  unfold hncCr sinftInverse
  congr 1
  refine Finset.sum_congr rfl fun x _ => ?_
  rw [hncCk_symm N M r k dr nv g hg a b x]

/-- Helper: one HNC iteration preserves species-pair symmetry. -/
lemma hncStep_symm (N M : ℕ) (r k : Fin M → ℝ) (dr dk : ℝ)
    (Vr : SpeciesField N M) (Tbar : Fin N → Fin N → ℝ) (nv : Fin N → ℝ)
    (cfg : HNCSettings) (hVr : IsSymmField N M Vr)
    (hT : ∀ a b, Tbar a b = Tbar b a) (g : SpeciesField N M)
    (hg : IsSymmField N M g) :
    IsSymmField N M (hncStep N M r k dr dk Vr Tbar nv cfg g) := by
  intro a b j
  unfold hncStep
  rw [hVr a b j, hT a b, hg a b j, hncCr_symm N M r k dr dk nv g hg a b j]

/-- Helper: the initial guess is symmetric for symmetric inputs. -/
lemma hncInit_symm (N M : ℕ) (Vr : SpeciesField N M)
    (Tbar : Fin N → Fin N → ℝ) (B : ℝ) (hVr : IsSymmField N M Vr)
    (hT : ∀ a b, Tbar a b = Tbar b a) :
    IsSymmField N M (hncInit N M Vr Tbar B) := by
  intro a b j
  unfold hncInit
  rw [hVr a b j, hT a b]

/-- Helper: the fixed-point loop preserves species-pair symmetry at every
fuel value. -/
lemma hncLoop_symm (N M : ℕ) (step : SpeciesField N M → SpeciesField N M)
    (tol : ℝ) (hstep : ∀ g, IsSymmField N M g → IsSymmField N M (step g)) :
    ∀ (fuel : ℕ) (g : SpeciesField N M), IsSymmField N M g →
      IsSymmField N M (hncLoop N M step tol fuel g).1 := by
  intro fuel
  induction fuel with
  | zero => intro g hg; exact hg
  | succ n ih =>
    intro g hg
    unfold hncLoop
    by_cases hres : hncResidual N M g (step g) < tol
    · simpa [hres] using hstep g hg
    · simpa [hres] using ih (step g) (hstep g hg)

/-- C7 (amended): from symmetric potential inputs (`V_ab = V_ba` in both real
and reciprocal space) and a symmetric temperature matrix, every solver output
`g` is symmetric under species-pair exchange, the symmetry being preserved
through every iteration; the assembled structure factors
`S_ab = δ_ab + n_a·T[g_ab − 1]` are additionally symmetric whenever the
density prefactors agree (`n_a = n_b`), which the unequal-density
counterexample shows cannot be dropped. -/
theorem hnc_symmetry_amended (N M : ℕ) (r k : Fin M → ℝ) (dr dk : ℝ)
    (Vr Vk : SpeciesField N M) (Tbar : Fin N → Fin N → ℝ) (nv : Fin N → ℝ)
    (cfg : HNCSettings) (hVr : IsSymmField N M Vr) (hVk : IsSymmField N M Vk)
    (hT : ∀ a b, Tbar a b = Tbar b a) :
    IsSymmField N M (hncSolveCore N M r k dr dk Vr Vk Tbar nv cfg).1 ∧
    ((∀ a b, nv a = nv b) → ∀ a b i,
      S_ii_HNC N M r k dr nv
          (hncSolveCore N M r k dr dk Vr Vk Tbar nv cfg).1 a b i
        = S_ii_HNC N M r k dr nv
          (hncSolveCore N M r k dr dk Vr Vk Tbar nv cfg).1 b a i) := by
  have hgsym : IsSymmField N M (hncSolveCore N M r k dr dk Vr Vk Tbar nv cfg).1 := by
    unfold hncSolveCore
    exact hncLoop_symm N M _ cfg.tol
      (fun g hg => hncStep_symm N M r k dr dk Vr Tbar nv cfg hVr hT g hg)
      cfg.maxIter _ (hncInit_symm N M Vr Tbar cfg.clampBound hVr hT)
  refine ⟨hgsym, fun hn a b i => ?_⟩
  simp only [S_ii_HNC]
  have hfun :
      (fun j => (hncSolveCore N M r k dr dk Vr Vk Tbar nv cfg).1 a b j - 1)
        = fun j => (hncSolveCore N M r k dr dk Vr Vk Tbar nv cfg).1 b a j - 1 :=
    funext fun j => by rw [hgsym a b j]
  rw [hfun, hn a b]
  congr 1
  by_cases hab : a = b
  · subst hab; rfl
  · simp [hab, Ne.symm hab]

/-- C7 (witness): instantiation of the amended symmetry theorem for a
single-species system with zero potential on a one-point grid. -/
theorem hnc_symmetry_amended_witness :
    (IsSymmField 1 1 (fun _ _ _ => (0:ℝ)) ∧
      (∀ a b : Fin 1, (fun _ _ : Fin 1 => (1:ℝ)) a b
        = (fun _ _ : Fin 1 => (1:ℝ)) b a)) ∧
    (IsSymmField 1 1
        (hncSolveCore 1 1 (fun _ => 1) (fun _ => 1) 1 1 (fun _ _ _ => (0:ℝ))
          (fun _ _ _ => (0:ℝ)) (fun _ _ => (1:ℝ)) (fun _ => (1:ℝ))
          ⟨1/2, 100, 1/100, 3⟩).1 ∧
      ((∀ a b : Fin 1, (fun _ : Fin 1 => (1:ℝ)) a = (fun _ : Fin 1 => (1:ℝ)) b) →
        ∀ a b i,
          S_ii_HNC 1 1 (fun _ => 1) (fun _ => 1) 1 (fun _ => (1:ℝ))
              (hncSolveCore 1 1 (fun _ => 1) (fun _ => 1) 1 1
                (fun _ _ _ => (0:ℝ)) (fun _ _ _ => (0:ℝ)) (fun _ _ => (1:ℝ))
                (fun _ => (1:ℝ)) ⟨1/2, 100, 1/100, 3⟩).1 a b i
            = S_ii_HNC 1 1 (fun _ => 1) (fun _ => 1) 1 (fun _ => (1:ℝ))
              (hncSolveCore 1 1 (fun _ => 1) (fun _ => 1) 1 1
                (fun _ _ _ => (0:ℝ)) (fun _ _ _ => (0:ℝ)) (fun _ _ => (1:ℝ))
                (fun _ => (1:ℝ)) ⟨1/2, 100, 1/100, 3⟩).1 b a i)) :=
  ⟨⟨fun _ _ _ => rfl, fun _ _ => rfl⟩,
    hnc_symmetry_amended 1 1 (fun _ => 1) (fun _ => 1) 1 1 (fun _ _ _ => (0:ℝ))
      (fun _ _ _ => (0:ℝ)) (fun _ _ => (1:ℝ)) (fun _ => (1:ℝ))
      ⟨1/2, 100, 1/100, 3⟩ (fun _ _ _ => rfl) (fun _ _ _ => rfl)
      (fun _ _ => rfl)⟩

noncomputable section

/-- Concrete symmetric potential input for the structure-factor
counterexample: `V_ab(r) = −log 2` for every pair and grid point. -/
def cexVr : SpeciesField 2 2 := fun _ _ _ => -Real.log 2

/-- Concrete symmetric temperature matrix (energy units): all ones. -/
def cexTbar : Fin 2 → Fin 2 → ℝ := fun _ _ => 1

/-- Concrete density vector with unequal densities: `n = (1, 2)`. -/
def cexNv : Fin 2 → ℝ := fun a => a.val + 1

/-- Solver configuration with iteration cap `0` (a cap-terminated run). -/
def cexCfg : HNCSettings := ⟨1, 100, 1, 0⟩

end

/-- C7 (counterexample): a cap-terminated solver run from fully symmetric
inputs (`V_ab = V_ba`, symmetric temperature matrix) whose assembled partial
structure factors are not symmetric: with densities `n = (1, 2)` the spec
assembler `S_ab = δ_ab + n_a·T[g_ab − 1]` gives `S_01(k_0) = 8` but
`S_10(k_0) = 16`. -/
theorem hnc_S_symmetry_claim_false :
    IsSymmField 2 2 cexVr ∧ (∀ a b, cexTbar a b = cexTbar b a) ∧
    S_ii_HNC 2 2 rGrid2 kGrid2 1 cexNv
        (hncSolveCore 2 2 rGrid2 kGrid2 1 (π/2) cexVr cexVr cexTbar cexNv
          cexCfg).1 0 1 0
      ≠ S_ii_HNC 2 2 rGrid2 kGrid2 1 cexNv
        (hncSolveCore 2 2 rGrid2 kGrid2 1 (π/2) cexVr cexVr cexTbar cexNv
          cexCfg).1 1 0 0 := by
  refine ⟨fun _ _ _ => rfl, fun _ _ => rfl, ?_⟩
  have hg : (hncSolveCore 2 2 rGrid2 kGrid2 1 (π/2) cexVr cexVr cexTbar cexNv
      cexCfg).1 = hncInit 2 2 cexVr cexTbar 100 := rfl
  have hginit : ∀ a b j, hncInit 2 2 cexVr cexTbar (100:ℝ) a b j = 2 := by
    intro a b j
    unfold hncInit cexVr cexTbar clampExp
    have hlog1 : Real.log 2 ≤ 100 :=
      le_trans (Real.log_le_sub_one_of_pos (by norm_num)) (by norm_num)
    have hlog0 : (0:ℝ) ≤ Real.log 2 := Real.log_nonneg (by norm_num)
    rw [show -(-Real.log 2) / (1:ℝ) = Real.log 2 by ring]
    rw [min_eq_right hlog1, max_eq_right (by linarith : (-100:ℝ) ≤ Real.log 2)]
    exact Real.exp_log (by norm_num)
  have hfun : ∀ a b : Fin 2,
      (fun j => (hncSolveCore 2 2 rGrid2 kGrid2 1 (π/2) cexVr cexVr cexTbar
        cexNv cexCfg).1 a b j - 1) = fun _ : Fin 2 => (1:ℝ) := by
    intro a b
    funext j
    rw [hg, hginit]
    norm_num
  have hT8 : sinftForward 2 rGrid2 kGrid2 1 (fun _ : Fin 2 => (1:ℝ)) 0 = 8 := by
    have h0 : rGrid2 0 = 1 := by simp [rGrid2]
    have h1 : rGrid2 1 = 2 := by norm_num [rGrid2]
    have k0 : kGrid2 0 = π / 2 := by simp [kGrid2]
    have s1 : Real.sin (π / 2 * 1) = 1 := by rw [mul_one, Real.sin_pi_div_two]
    have s2 : Real.sin (π / 2 * 2) = 0 := by
      rw [show π / 2 * 2 = π by ring, Real.sin_pi]
    have hπ : π ≠ 0 := Real.pi_ne_zero
    simp only [sinftForward, Fin.sum_univ_two, h0, h1, k0, s1, s2]
    field_simp
    ring
  simp only [S_ii_HNC, hfun, hT8, cexNv]
  norm_num

/-! ## Solver boundary: shape validation -/

/-- Modelled from the spec: the error taxonomy of the solver (spec §7). -/
inductive HNCError
  | shapeMismatch
deriving DecidableEq

/-- Raw solver input as unshaped nested arrays, before validation: the real
and reciprocal potential cubes, the declared radial grid, the temperature
matrix and the density vector. -/
structure HNCRawInput where
  Vr : List (List (List ℝ))
  Vk : List (List (List ℝ))
  rGrid : List ℝ
  Tbar : List (List ℝ)
  nv : List ℝ

/-- An `N×N×M` potential cube has the declared species count and grid
length. -/
def cubeShapeOk (N M : ℕ) (V : List (List (List ℝ))) : Bool :=
  V.length == N && V.all fun row => row.length == N && row.all fun s => s.length == M

/-- Modelled from the spec: the shape consistency check performed before
iteration (spec §7, ShapeMismatch: input arrays/grids with inconsistent
lengths across species count or grid size are rejected before iteration
begins). -/
def shapesOk (inp : HNCRawInput) : Bool :=
  cubeShapeOk inp.nv.length inp.rGrid.length inp.Vr
    && cubeShapeOk inp.nv.length inp.rGrid.length inp.Vk
    && (inp.Tbar.length == inp.nv.length
        && inp.Tbar.all fun row => row.length == inp.nv.length)

/-- Modelled from the spec: the solver entry point.  Shapes are validated
first; a mismatch is rejected with `shapeMismatch` before any iteration
executes.  On success the core fixed-point solve runs on the shape-checked
data and returns the pair-distribution field with the iteration count. -/
noncomputable def pair_distribution_function_HNC (inp : HNCRawInput)
    (cfg : HNCSettings) :
    Except HNCError
      ((Fin inp.nv.length → Fin inp.nv.length → Fin inp.rGrid.length → ℝ) × ℕ) :=
  if shapesOk inp then
    let N := inp.nv.length
    let M := inp.rGrid.length
    let rf : Fin M → ℝ := fun j => inp.rGrid.getD j 0
    let dr : ℝ := inp.rGrid.getD 1 0 - inp.rGrid.getD 0 0
    let kf : Fin M → ℝ := fun i => kGrid M (fun t => inp.rGrid.getD t 0) i
    let dk : ℝ := π / (M * dr)
    let VrF : SpeciesField N M := fun a b j =>
      ((inp.Vr.getD a []).getD b []).getD j 0
    let VkF : SpeciesField N M := fun a b j =>
      ((inp.Vk.getD a []).getD b []).getD j 0
    let TbarF : Fin N → Fin N → ℝ := fun a b => (inp.Tbar.getD a []).getD b 0
    let nvF : Fin N → ℝ := fun a => inp.nv.getD a 0
    .ok (hncSolveCore N M rf kf dr dk VrF VkF TbarF nvF cfg)
  else .error .shapeMismatch

/-- The malformed-shape conditions named by the claim: the species count of a potential
cube differs from the length of the density vector, or some slice of a
potential cube disagrees with the declared grid length (or with the species
count). -/
def MalformedShapes (inp : HNCRawInput) : Prop :=
  inp.Vr.length ≠ inp.nv.length ∨ inp.Vk.length ≠ inp.nv.length ∨
    (∃ p ∈ inp.Vr, p.length ≠ inp.nv.length ∨
      ∃ s ∈ p, s.length ≠ inp.rGrid.length) ∨
    (∃ p ∈ inp.Vk, p.length ≠ inp.nv.length ∨
      ∃ s ∈ p, s.length ≠ inp.rGrid.length)

/-- C6: calling the solver with malformed input shapes — a species count that
differs between the density vector and a potential cube, or a grid-length
mismatch between `V_r`, `V_k` and the declared grid — is rejected with
`shapeMismatch` before any iteration executes: the result is the error for
every solver configuration (in particular the outcome does not depend on the
iteration cap, so no iteration is ever attempted and no partial result is
produced). -/
theorem hnc_shape_mismatch_rejected (inp : HNCRawInput)
    (h : MalformedShapes inp) (cfg cfg' : HNCSettings) :
    pair_distribution_function_HNC inp cfg = .error .shapeMismatch ∧
    pair_distribution_function_HNC inp cfg
      = pair_distribution_function_HNC inp cfg' := by
  have hOk : shapesOk inp = false := by
    cases hsh : shapesOk inp with
    | false => rfl
    | true =>
      exfalso
      simp only [shapesOk, cubeShapeOk, Bool.and_eq_true, List.all_eq_true,
        beq_iff_eq] at hsh
      obtain ⟨⟨⟨hVrN, hVrRows⟩, hVkN, hVkRows⟩, _⟩ := hsh
      rcases h with h | h | h | h
      · exact h hVrN
      · exact h hVkN
      · obtain ⟨p, hp, hbad⟩ := h
        rcases hbad with hbad | ⟨s, hs, hbad⟩
        · exact hbad (hVrRows p hp).1
        · exact hbad ((hVrRows p hp).2 s hs)
      · obtain ⟨p, hp, hbad⟩ := h
        rcases hbad with hbad | ⟨s, hs, hbad⟩
        · exact hbad (hVkRows p hp).1
        · exact hbad ((hVkRows p hp).2 s hs)
  constructor <;> simp [pair_distribution_function_HNC, hOk]

/-- C6 (witness): the concrete malformed input with one declared species but
an empty (`0`-species) potential cube is rejected, identically for two
different configurations. -/
theorem hnc_shape_mismatch_rejected_witness :
    MalformedShapes ⟨[], [], [1], [[1]], [1]⟩ ∧
    (pair_distribution_function_HNC ⟨[], [], [1], [[1]], [1]⟩ ⟨1, 100, 1, 10⟩
        = .error .shapeMismatch ∧
      pair_distribution_function_HNC ⟨[], [], [1], [[1]], [1]⟩ ⟨1, 100, 1, 10⟩
        = pair_distribution_function_HNC ⟨[], [], [1], [[1]], [1]⟩
            ⟨1/2, 50, 1/100, 500⟩) :=
  ⟨Or.inl (by simp),
    hnc_shape_mismatch_rejected ⟨[], [], [1], [[1]], [1]⟩ (Or.inl (by simp))
      ⟨1, 100, 1, 10⟩ ⟨1/2, 50, 1/100, 500⟩⟩

/-! ## Name resolution in plasma_physics and bound_free -/

/-- Opaque runtime value of the embedded Python fragment.  The claims settled
here depend only on name resolution and control flow, not on arithmetic, so
values carry no payload. -/
inductive PyVal
  | obj
deriving DecidableEq

/-- Errors raised by the embedded fragment. -/
inductive PyErr
  | nameError (missing : String)
  | valueError (msg : String)
deriving DecidableEq

/-- Expressions of the embedded Python fragment: name references (resolved
against local then module-global scope, as Python does), literals, attribute
access, binary operations (evaluated left to right) and single-argument
calls. -/
inductive PyExpr
  | name (s : String)
  | lit (n : ℤ)
  | attr (e : PyExpr) (field : String)
  | binop (a b : PyExpr)
  | call (f : PyExpr) (arg : PyExpr)

/-- Strict left-to-right evaluator: the first unresolvable name raises
`NameError`, exactly as in CPython. -/
def evalPy (globals locals : List String) : PyExpr → Except PyErr PyVal
  | .name s =>
      if s ∈ locals then .ok .obj
      else if s ∈ globals then .ok .obj
      else .error (.nameError s)
  | .lit _ => .ok .obj
  | .attr e _ => do
      let _ ← evalPy globals locals e
      pure .obj
  | .binop a b => do
      let _ ← evalPy globals locals a
      let _ ← evalPy globals locals b
      pure .obj
  | .call f arg => do
      let _ ← evalPy globals locals f
      let _ ← evalPy globals locals arg
      pure .obj

/-- The global names bound in the module `jaxrts.plasma_physics`
(`src/jaxrts/plasma_physics.py` lines 5–7 import only `ureg`, `Quantity` and
`jnpu`; the module then defines its two functions).  `onp` is never bound. -/
def plasmaPhysicsGlobals : List String :=
  ["ureg", "Quantity", "jnpu", "plasma_frequency", "thomson_momentum_transfer"]

/-- The body of `thomson_momentum_transfer`
(`src/jaxrts/plasma_physics.py` line 45):
`(2 * energy) / (ureg.hbar * ureg.c) * onp.sin(angle / 2)`. -/
def thomsonBody : PyExpr :=
  .binop
    (.binop (.binop (.lit 2) (.name "energy"))
      (.binop (.attr (.name "ureg") "hbar") (.attr (.name "ureg") "c")))
    (.call (.attr (.name "onp") "sin") (.binop (.name "angle") (.lit 2)))

/-- Calling `thomson_momentum_transfer(energy, angle)`: evaluate the body with the two
parameters in local scope and the globals of the module. -/
def thomson_momentum_transfer (energy angle : PyVal) : Except PyErr PyVal :=
  evalPy plasmaPhysicsGlobals ["energy", "angle"] thomsonBody

/-- The list of valid approximations of `inelastic_structure_factor`
(`src/jaxrts/bound_free.py` line 174). -/
def valid_approx : List String := ["impulse"]

/-- Control flow of `inelastic_structure_factor`
(`src/jaxrts/bound_free.py` lines 174–198), parametrized over the
momentum-transfer implementation: first the approximation key is validated
(raising `ValueError` for an unknown key), then
`k = thomson_momentum_transfer(Eprobe, angle)` is computed, and only then the
remaining structure-factor arithmetic runs (it raises nothing itself, so it is
collapsed to a value). -/
def inelastic_structure_factor_with
    (impl : PyVal → PyVal → Except PyErr PyVal) (Eprobe angle : PyVal)
    (J_approx : String) : Except PyErr PyVal :=
  if J_approx ∈ valid_approx then
    match impl Eprobe angle with
    | .error e => .error e
    | .ok _ => .ok .obj
  else .error (.valueError J_approx)

/-- The function `inelastic_structure_factor` with the actual momentum-transfer function
imported from `jaxrts.plasma_physics`. -/
def inelastic_structure_factor (Eprobe angle : PyVal) (J_approx : String) :
    Except PyErr PyVal :=
  inelastic_structure_factor_with thomson_momentum_transfer Eprobe angle
    J_approx

/-- Helper: every call of the momentum transfer fails to resolve `onp`. -/
lemma thomson_eval (energy angle : PyVal) :
    thomson_momentum_transfer energy angle = .error (.nameError "onp") := rfl

/-- C8: every call of `thomson_momentum_transfer` raises `NameError` because
`onp` is not bound in `jaxrts.plasma_physics`, and consequently every call of
`inelastic_structure_factor` with the valid key `"impulse"` raises the same
`NameError` when it computes the momentum transfer. -/
theorem thomson_momentum_transfer_raises_nameError :
    (∀ energy angle : PyVal,
      thomson_momentum_transfer energy angle = .error (.nameError "onp")) ∧
    (∀ Eprobe angle : PyVal,
      inelastic_structure_factor Eprobe angle "impulse"
        = .error (.nameError "onp")) :=
  ⟨fun _ _ => rfl, fun _ _ => rfl⟩

/-- C10: `inelastic_structure_factor` raises `ValueError` if and only if the
approximation key is not in `["impulse"]`; and for an invalid key the result
is the validation error regardless of the momentum-transfer implementation,
so the validation happens before any momentum-transfer or structure-factor
computation. -/
theorem inelastic_structure_factor_valueError_iff (J : String)
    (Eprobe angle : PyVal) :
    ((∃ msg, inelastic_structure_factor Eprobe angle J
        = .error (.valueError msg)) ↔ J ∉ valid_approx) ∧
    (J ∉ valid_approx →
      ∀ impl impl' : PyVal → PyVal → Except PyErr PyVal,
        inelastic_structure_factor_with impl Eprobe angle J
          = inelastic_structure_factor_with impl' Eprobe angle J) := by
  constructor
  · by_cases hJ : J ∈ valid_approx
    · simp only [inelastic_structure_factor, inelastic_structure_factor_with,
        if_pos hJ, thomson_eval]
      simp [hJ]
    · simp [inelastic_structure_factor, inelastic_structure_factor_with,
        if_neg hJ, hJ]
  · intro hJ impl impl'
    simp [inelastic_structure_factor_with, if_neg hJ]

/-- C10 (witness): for the concrete invalid key `"born"` the call returns the
`ValueError`, independently of two arbitrarily different momentum-transfer
implementations. -/
theorem inelastic_structure_factor_valueError_iff_witness :
    ("born" ∉ valid_approx) ∧
    inelastic_structure_factor_with (fun _ _ => .ok .obj) .obj .obj "born"
      = inelastic_structure_factor_with
          (fun _ _ => .error (.nameError "x")) .obj .obj "born" :=
  ⟨by decide,
    (inelastic_structure_factor_valueError_iff "born" .obj .obj).2 (by decide)
      (fun _ _ => .ok .obj) (fun _ _ => .error (.nameError "x"))⟩

/-! ## Persistence layer (saving.py) -/

/-- Leaf values handled by `JaXRTSEncoder.default`
(`src/jaxrts/saving.py` lines 62–135): quantities, elements, jax/numpy
arrays, numpy integers, plain scalars — and `jax.tree_util.Partial` objects,
which the encoder pickles. -/
inductive PyLeaf
  | num (q : ℚ)
  | str (s : String)
  | quantity (mag : ℚ) (unit : String)
  | element (symbol : String)
  | jaxArray (vals : List ℚ)
  | npArray (vals : List ℚ)
  | npInt (n : ℤ)
  | pickleFn (code : String)
deriving DecidableEq

/-- Objects serialized by the persistence layer: leaves, or flattenable model
objects (`Model`, `PlasmaState`, `Setup`, `HNCPotential`) whose
`_tree_flatten` produces leaf children and auxiliary data, which the JSON
machinery then encodes recursively. -/
inductive PyObject
  | leaf (v : PyLeaf)
  | model (name : String) (children : List PyLeaf) (aux : List PyLeaf)
deriving DecidableEq

/-- Encoded JSON-like output.  The constructor `pickled code` stands for the
string `base64.b64encode(pickle.dumps(obj)).decode("utf-8")` the encoder
emits for `jax.tree_util.Partial` objects (lines 130–134): a serialized
executable closure, distinguished from plain string data. -/
inductive JVal
  | num (q : ℚ)
  | int (n : ℤ)
  | str (s : String)
  | arr (elems : List JVal)
  | obj (fields : List (String × JVal))
  | pickled (code : String)

/-- Leaf encoding, following the `isinstance` dispatch of
`JaXRTSEncoder.default`: every branch emits a `_type`-tagged object of plain
data, except the `jax.tree_util.Partial` branch, which emits the pickled
closure. -/
def encodeLeaf : PyLeaf → JVal
  | .num q => .num q
  | .str s => .str s
  | .quantity m u =>
      .obj [("_type", .str "Quantity"), ("value", .arr [.num m, .str u])]
  | .element s => .obj [("_type", .str "Element"), ("value", .str s)]
  | .jaxArray vs =>
      .obj [("_type", .str "Array"), ("value", .arr (vs.map JVal.num))]
  | .npArray vs =>
      .obj [("_type", .str "ndArray"), ("value", .arr (vs.map JVal.num))]
  | .npInt n => .int n
  | .pickleFn code =>
      .obj [("_type", .str "jaxPartial"), ("value", .pickled code)]

/-- Object encoding: leaves are dispatched to `encodeLeaf`; model objects are
encoded as their variant tag (`obj.__name__`) together with the recursively
encoded flattened children and auxiliary data. -/
def encodeObject : PyObject → JVal
  | .leaf v => encodeLeaf v
  | .model name children aux =>
      .obj [("_type", .str "Model"),
        ("value", .arr [.str name,
          .arr [.arr (children.map encodeLeaf), .arr (aux.map encodeLeaf)]])]

mutual

/-- An encoded value is plain data when no pickled-closure payload occurs
anywhere inside it. -/
def JVal.isPlainData : JVal → Bool
  | .num _ => true
  | .int _ => true
  | .str _ => true
  | .pickled _ => false
  | .arr elems => JVal.isPlainDataList elems
  | .obj fields => JVal.isPlainDataFields fields

def JVal.isPlainDataList : List JVal → Bool
  | [] => true
  | v :: vs => v.isPlainData && JVal.isPlainDataList vs

def JVal.isPlainDataFields : List (String × JVal) → Bool
  | [] => true
  | (_, v) :: fs => v.isPlainData && JVal.isPlainDataFields fs

end

/-- A leaf is (or contains) an executable `jax.tree_util.Partial` object. -/
def PyLeaf.isPickleFn : PyLeaf → Bool
  | .pickleFn _ => true
  | _ => false

/-- An object contains an executable `jax.tree_util.Partial` somewhere. -/
def PyObject.containsPickleFn : PyObject → Bool
  | .leaf v => v.isPickleFn
  | .model _ children aux =>
      children.any PyLeaf.isPickleFn || aux.any PyLeaf.isPickleFn

/-- Helper: a list of numbers encodes to plain data. -/
lemma isPlainDataList_map_num (vs : List ℚ) :
    JVal.isPlainDataList (vs.map JVal.num) = true := by
  induction vs with
  | nil => rfl
  | cons v t ih => simp [JVal.isPlainDataList, JVal.isPlainData, ih]

/-- Helper: encoding a non-closure leaf yields plain data. -/
lemma encodeLeaf_plain (v : PyLeaf) (h : v.isPickleFn = false) :
    (encodeLeaf v).isPlainData = true := by
  cases v <;>
    simp_all [encodeLeaf, PyLeaf.isPickleFn, JVal.isPlainData,
      JVal.isPlainDataList, JVal.isPlainDataFields, isPlainDataList_map_num]

/-- Helper: encoding a list of non-closure leaves yields plain data. -/
lemma isPlainDataList_map_encodeLeaf (vs : List PyLeaf)
    (h : vs.any PyLeaf.isPickleFn = false) :
    JVal.isPlainDataList (vs.map encodeLeaf) = true := by
  induction vs with
  | nil => rfl
  | cons v t ih =>
    simp only [List.any_cons, Bool.or_eq_false_iff] at h
    simp [JVal.isPlainDataList, encodeLeaf_plain v h.1, ih h.2]

/-- C4 (counterexample): the persistence layer does serialize executable
code: encoding a `jax.tree_util.Partial` object emits the base64-pickled
closure, so its output is not plain data. -/
theorem encoder_pickles_closures :
    encodeObject (.leaf (.pickleFn "lambda"))
      = .obj [("_type", .str "jaxPartial"), ("value", .pickled "lambda")] ∧
    (encodeObject (.leaf (.pickleFn "lambda"))).isPlainData = false :=
  ⟨rfl, rfl⟩

/-- C4 (amended): the persistence layer serializes as plain data (arrays,
scalars and a variant tag, no executable payload) every object that does not
contain a `jax.tree_util.Partial`; objects containing a `Partial` are instead
base64-pickled, so the unqualified "never contains executable code" fails
exactly on them. -/
theorem encoder_plain_without_closures (o : PyObject)
    (h : o.containsPickleFn = false) :
    (encodeObject o).isPlainData = true := by
  cases o with
  | leaf v => exact encodeLeaf_plain v h
  | model name children aux =>
    simp only [PyObject.containsPickleFn, Bool.or_eq_false_iff] at h
    simp [encodeObject, JVal.isPlainData, JVal.isPlainDataList,
      JVal.isPlainDataFields,
      isPlainDataList_map_encodeLeaf children h.1,
      isPlainDataList_map_encodeLeaf aux h.2]

/-- C4 (witness): a model object with a quantity and an array child contains
no closure and encodes to plain data. -/
theorem encoder_plain_without_closures_witness :
    (PyObject.containsPickleFn
        (.model "CoulombPotential" [.quantity 1 "eV"] [.jaxArray [1, 2]])
      = false) ∧
    (encodeObject
        (.model "CoulombPotential" [.quantity 1 "eV"] [.jaxArray [1, 2]])).isPlainData
      = true :=
  ⟨by decide,
    encoder_plain_without_closures
      (.model "CoulombPotential" [.quantity 1 "eV"] [.jaxArray [1, 2]])
      (by decide)⟩

/-! ## Serialization of the HNCPotential radial grid -/

/-- Minimum of a list of rationals (`jnpu.min` over a nonempty array;
the `[]` value is irrelevant, the encoder is only applied to grids). -/
def listMin : List ℚ → ℚ
  | [] => 0
  | [a] => a
  | a :: b :: t => min a (listMin (b :: t))

/-- Maximum of a list of rationals (`jnpu.max`). -/
def listMax : List ℚ → ℚ
  | [] => 0
  | [a] => a
  | a :: b :: t => max a (listMax (b :: t))

/-- Embedded from `src/jaxrts/saving.py` lines 80–102: serializing an
`HNCPotential` replaces its `_transform_r` grid by the triple
`(start = jnpu.min(r), stop = jnpu.max(r), num = len(r))`. -/
def encodeTransformR (l : List ℚ) : ℚ × ℚ × ℕ :=
  (listMin l, listMax l, l.length)

/-- The grid builder `jnpu.linspace(start, stop, num)` with included endpoint:
`start + i·(stop − start)/(num − 1)` for `i < num` (for `num = 1` the
quotient is `0` and the list is `[start]`, as in numpy). -/
def linspaceQ (start stop : ℚ) (num : ℕ) : List ℚ :=
  (List.range num).map fun (i : ℕ) =>
    start + (i : ℚ) * (stop - start) / ((num : ℚ) - 1)

/-- Embedded from `src/jaxrts/saving.py` lines 208–213: loading reconstructs
`_transform_r` as `jnpu.linspace(**stored)`. -/
def decodeTransformR (t : ℚ × ℚ × ℕ) : List ℚ :=
  linspaceQ t.1 t.2.1 t.2.2

/-- The grid is equidistant with step `d`. -/
def isArithWith (d : ℚ) (l : List ℚ) : Prop :=
  ∀ i, i + 1 < l.length → l.getD (i + 1) 0 = l.getD i 0 + d

/-- Helper: the list minimum bounds every member from below. -/
lemma listMin_le_mem (l : List ℚ) : ∀ x ∈ l, listMin l ≤ x := by
  induction l with
  | nil => intro x hx; cases hx
  | cons a t ih =>
    intro x hx
    cases t with
    | nil =>
      rcases List.mem_singleton.mp hx with rfl
      simp [listMin]
    | cons b t2 =>
      simp only [listMin]
      rcases List.mem_cons.mp hx with rfl | hx2
      · exact min_le_left _ _
      · exact le_trans (min_le_right _ _) (ih x hx2)

/-- Helper: the list minimum of a nonempty list is a member. -/
lemma listMin_mem (l : List ℚ) (h : l ≠ []) : listMin l ∈ l := by
  induction l with
  | nil => exact absurd rfl h
  | cons a t ih =>
    cases t with
    | nil => simp [listMin]
    | cons b t2 =>
      simp only [listMin]
      rcases min_choice a (listMin (b :: t2)) with hm | hm
      · rw [hm]; exact List.mem_cons_self _ _
      · rw [hm]; exact List.mem_cons_of_mem _ (ih (by simp))

/-- Helper: the list maximum bounds every member from above. -/
lemma le_listMax_mem (l : List ℚ) : ∀ x ∈ l, x ≤ listMax l := by
  induction l with
  | nil => intro x hx; cases hx
  | cons a t ih =>
    intro x hx
    cases t with
    | nil =>
      rcases List.mem_singleton.mp hx with rfl
      simp [listMax]
    | cons b t2 =>
      simp only [listMax]
      rcases List.mem_cons.mp hx with rfl | hx2
      · exact le_max_left _ _
      · exact le_trans (ih x hx2) (le_max_right _ _)

/-- Helper: the list maximum of a nonempty list is a member. -/
lemma listMax_mem (l : List ℚ) (h : l ≠ []) : listMax l ∈ l := by
  induction l with
  | nil => exact absurd rfl h
  | cons a t ih =>
    cases t with
    | nil => simp [listMax]
    | cons b t2 =>
      simp only [listMax]
      rcases max_choice a (listMax (b :: t2)) with hm | hm
      · rw [hm]; exact List.mem_cons_self _ _
      · rw [hm]; exact List.mem_cons_of_mem _ (ih (by simp))

/-- Helper: the element formula of `linspaceQ`. -/
lemma linspaceQ_getD (s e : ℚ) (n i : ℕ) (hi : i < n) :
    (linspaceQ s e n).getD i 0 = s + i * (e - s) / ((n : ℚ) - 1) := by
  have hlen : (linspaceQ s e n).length = n := by
    unfold linspaceQ
    rw [List.length_map, List.length_range]
  rw [List.getD_eq_getElem _ _ (lt_of_lt_of_eq hi hlen.symm)]
  unfold linspaceQ
  rw [List.getElem_map, List.getElem_range]

/-- Helper: explicit form of an equidistant list. -/
lemma arith_getD (d : ℚ) (l : List ℚ) (h : isArithWith d l) :
    ∀ i, i < l.length → l.getD i 0 = l.getD 0 0 + i * d := by
  intro i
  induction i with
  | zero => intro _; simp
  | succ n ih =>
    intro hi
    rw [h n hi, ih (by omega)]
    push_cast
    ring

/-- C9 (counterexample): the grid `[1, 0]` is equidistantly spaced (step
`−1`), yet the serialize-then-deserialize round trip returns `[0, 1]`: the
stored `(min, max, len)` summary forgets the orientation, so "round trip
reproduces the grid exactly if equidistantly spaced" fails for descending
grids. -/
theorem transformR_descending_not_restored :
    isArithWith (-1) [(1:ℚ), 0] ∧
    decodeTransformR (encodeTransformR [(1:ℚ), 0]) ≠ [(1:ℚ), 0] := by
  constructor
  · intro i hi
    have hi0 : i = 0 := by
      simp only [List.length_cons, List.length_nil] at hi
      omega
    subst hi0
    norm_num
  · have heval :
        decodeTransformR (encodeTransformR [(1:ℚ), 0]) = [0, 1] := by
      show linspaceQ (listMin [(1:ℚ), 0]) (listMax [(1:ℚ), 0]) 2 = [0, 1]
      norm_num [listMin, listMax, linspaceQ, List.range_succ]
    rw [heval]
    intro h
    injection h with h1 _
    norm_num at h1

/-- C9 (amended): the serialize-then-deserialize round trip reproduces the
`_transform_r` grid exactly if and only if the grid is equidistant with
nonnegative step (equidistant ascending, or constant); a non-equidistant or
descending grid is silently replaced by the ascending equidistant grid with
the same minimum, maximum and length. -/
theorem transformR_roundtrip_iff (l : List ℚ) (hl : l ≠ []) :
    decodeTransformR (encodeTransformR l) = l ↔
      ∃ d, 0 ≤ d ∧ isArithWith d l := by
  have hLpos : 0 < l.length := List.length_pos.mpr hl
  have hL1 : (1:ℚ) ≤ (l.length : ℚ) := by exact_mod_cast hLpos
  have hdec :
      decodeTransformR (encodeTransformR l)
        = linspaceQ (listMin l) (listMax l) l.length := rfl
  constructor
  · intro h
    rw [hdec] at h
    refine ⟨(listMax l - listMin l) / ((l.length : ℚ) - 1),
      div_nonneg (sub_nonneg.mpr (listMin_le_mem l _ (listMax_mem l hl)))
        (by linarith), ?_⟩
    intro i hi
    have e1 := linspaceQ_getD (listMin l) (listMax l) l.length i (by omega)
    have e2 := linspaceQ_getD (listMin l) (listMax l) l.length (i + 1) hi
    rw [h] at e1 e2
    rw [e1, e2]
    push_cast
    ring
  · rintro ⟨d, hd0, harith⟩
    have hexp := arith_getD d l harith
    have hhead_mem : l.getD 0 0 ∈ l := by
      rw [List.getD_eq_getElem _ _ hLpos]
      exact List.getElem_mem _
    have hA_le : listMin l ≤ l.getD 0 0 := listMin_le_mem l _ hhead_mem
    have hA_ge : l.getD 0 0 ≤ listMin l := by
      obtain ⟨j, hj, hjeq⟩ := List.mem_iff_getElem.mp (listMin_mem l hl)
      have hj2 : l.getD j 0 = listMin l := by
        rw [List.getD_eq_getElem _ _ hj]; exact hjeq
      have hv := hexp j hj
      rw [hj2] at hv
      have hjd : 0 ≤ (j : ℚ) * d := mul_nonneg (Nat.cast_nonneg _) hd0
      linarith
    have hA : listMin l = l.getD 0 0 := le_antisymm hA_le hA_ge
    have hlast_lt : l.length - 1 < l.length := by omega
    have hcast : ((l.length - 1 : ℕ) : ℚ) = (l.length : ℚ) - 1 := by
      rw [Nat.cast_sub (by omega : 1 ≤ l.length)]
      norm_num
    have hlast_val :
        l.getD (l.length - 1) 0 = l.getD 0 0 + ((l.length : ℚ) - 1) * d := by
      rw [hexp _ hlast_lt, hcast]
    have hlast_mem : l.getD (l.length - 1) 0 ∈ l := by
      rw [List.getD_eq_getElem _ _ hlast_lt]
      exact List.getElem_mem _
    have hB_ge : l.getD 0 0 + ((l.length : ℚ) - 1) * d ≤ listMax l := by
      rw [← hlast_val]
      exact le_listMax_mem l _ hlast_mem
    have hB_le : listMax l ≤ l.getD 0 0 + ((l.length : ℚ) - 1) * d := by
      obtain ⟨j, hj, hjeq⟩ := List.mem_iff_getElem.mp (listMax_mem l hl)
      have hj2 : l.getD j 0 = listMax l := by
        rw [List.getD_eq_getElem _ _ hj]; exact hjeq
      have hv := hexp j hj
      rw [hj2] at hv
      have hjle : (j : ℚ) ≤ (l.length : ℚ) - 1 := by
        have hjn : j ≤ l.length - 1 := by omega
        calc (j : ℚ) ≤ ((l.length - 1 : ℕ) : ℚ) := by exact_mod_cast hjn
          _ = (l.length : ℚ) - 1 := hcast
      have := mul_le_mul_of_nonneg_right hjle hd0
      linarith
    have hB : listMax l = l.getD 0 0 + ((l.length : ℚ) - 1) * d :=
      le_antisymm hB_le hB_ge
    rw [hdec]
    apply List.ext_getElem
    · unfold linspaceQ
      rw [List.length_map, List.length_range]
    · intro i h1 h2
      rw [← List.getD_eq_getElem _ 0 h1, ← List.getD_eq_getElem _ 0 h2]
      rw [linspaceQ_getD _ _ _ _ h2, hexp i h2, hA, hB]
      rcases eq_or_lt_of_le hL1 with hEq | hLt
      · have hLn : l.length = 1 := by exact_mod_cast hEq.symm
        have hi0 : i = 0 := by omega
        subst hi0
        simp
      · have hne : (l.length : ℚ) - 1 ≠ 0 := by linarith
        field_simp
        ring

/-- C9 (witness): instantiation of the round-trip characterization at the
ascending equidistant grid `[1, 2, 3]`. -/
theorem transformR_roundtrip_iff_witness :
    (([(1:ℚ), 2, 3] : List ℚ) ≠ []) ∧
    (decodeTransformR (encodeTransformR [(1:ℚ), 2, 3]) = [(1:ℚ), 2, 3] ↔
      ∃ d, 0 ≤ d ∧ isArithWith d [(1:ℚ), 2, 3]) :=
  ⟨by simp, transformR_roundtrip_iff [(1:ℚ), 2, 3] (by simp)⟩
